import Mathlib

/-!
Shallow embedding of the n-gram aggregation engine of the word-frequencies
repository (src/create_frequencies.rs, src/util.rs), together with proofs
of the specified properties of merging, per-line counting, article counts,
threshold filtering and serialization.

Rust `BTreeMap`/`HashMap` count tables are modelled as association lists
with strictly increasing keys (`SMap`); `u64` counters are modelled as `Nat`
(no count in the claims approaches 2^64, and `u64::max_value()` is kept as
the explicit constant `U64_MAX` where the code uses it as a lookup default).
String ordering is byte/codepoint lexicographic, matching Rust's `Ord` for
`String` on UTF-8 text, and is implemented here by the executable
comparison `strBlt` on the underlying character lists.
-/

set_option linter.unusedSectionVars false

namespace WordFreq

/-- Addition of optional counters: `none` represents an absent map entry,
matching `entry(k).or_insert(0) += v` semantics where merging two maps
keeps a key present iff it is present in at least one operand. -/
def addOpt : Option Nat → Option Nat → Option Nat
  | none, b => b
  | some a, none => some a
  | some a, some b => some (a + b)

theorem addOpt_none_left (b : Option Nat) : addOpt none b = b := rfl

theorem addOpt_none_right (a : Option Nat) : addOpt a none = a := by
  cases a <;> rfl

theorem addOpt_comm (a b : Option Nat) : addOpt a b = addOpt b a := by
  cases a <;> cases b <;> simp [addOpt, Nat.add_comm]

theorem addOpt_assoc (a b c : Option Nat) :
    addOpt (addOpt a b) c = addOpt a (addOpt b c) := by
  cases a <;> cases b <;> cases c <;> simp [addOpt, Nat.add_assoc]

theorem addOpt_getD (a b : Option Nat) :
    (addOpt a b).getD 0 = a.getD 0 + b.getD 0 := by
  cases a <;> cases b <;> simp [addOpt]

theorem addOpt_isSome (a b : Option Nat) :
    (addOpt a b).isSome = (a.isSome || b.isSome) := by
  cases a <;> cases b <;> rfl

/-- A strict linear order on keys given by an executable boolean
comparison, as used by Rust's `BTreeMap`. -/
class LinKey (K : Type) where
  blt : K → K → Bool
  blt_asymm : ∀ a b, blt a b = true → blt b a = false
  eq_of_not_blt : ∀ a b, blt a b = false → blt b a = false → a = b
  blt_trans : ∀ a b c, blt a b = true → blt b c = true → blt a c = true

theorem LinKey.blt_irrefl {K : Type} [LinKey K] (a : K) :
    LinKey.blt a a = false := by
  cases h : LinKey.blt a a with
  | false => rfl
  | true =>
    have hf := LinKey.blt_asymm a a h
    rw [h] at hf
    exact hf

/-- Codepoint comparison of characters (= byte-order comparison in UTF-8). -/
def charBlt (a b : Char) : Bool := decide (a.toNat < b.toNat)

theorem charBlt_asymm (a b : Char) (h : charBlt a b = true) :
    charBlt b a = false := by
  simp only [charBlt, decide_eq_true_eq] at h
  simp only [charBlt, decide_eq_false_iff_not]
  omega

theorem charBlt_irrefl (a : Char) : charBlt a a = false := by
  simp [charBlt]

theorem char_eq_of_not_blt (a b : Char) (h1 : charBlt a b = false)
    (h2 : charBlt b a = false) : a = b := by
  simp only [charBlt, decide_eq_false_iff_not] at h1 h2
  apply Char.ext
  apply UInt32.ext
  simp only [Char.toNat] at h1 h2
  omega

theorem charBlt_trans (a b c : Char) (h1 : charBlt a b = true)
    (h2 : charBlt b c = true) : charBlt a c = true := by
  simp only [charBlt, decide_eq_true_eq] at h1 h2 ⊢
  omega

/-- Lexicographic comparison of character lists, the order Rust uses for
`String` keys in a `BTreeMap`. -/
def charListBlt : List Char → List Char → Bool
  | [], [] => false
  | [], _ :: _ => true
  | _ :: _, [] => false
  | a :: as, b :: bs => charBlt a b || (decide (a = b) && charListBlt as bs)

theorem charListBlt_asymm (l1 l2 : List Char) (h : charListBlt l1 l2 = true) :
    charListBlt l2 l1 = false := by
  induction l1 generalizing l2 with
  | nil =>
    cases l2 with
    | nil => simp [charListBlt] at h
    | cons b bs => simp [charListBlt]
  | cons a as ih =>
    cases l2 with
    | nil => simp [charListBlt] at h
    | cons b bs =>
      simp only [charListBlt, Bool.or_eq_true, Bool.and_eq_true,
        decide_eq_true_eq] at h
      simp only [charListBlt, Bool.or_eq_false_iff, Bool.and_eq_false_iff]
      rcases h with hab | ⟨heq, hrec⟩
      · refine ⟨charBlt_asymm a b hab, Or.inl ?_⟩
        simp only [decide_eq_false_iff_not]
        intro he
        rw [he, charBlt_irrefl] at hab
        exact Bool.false_ne_true hab
      · subst heq
        exact ⟨charBlt_irrefl a, Or.inr (ih bs hrec)⟩

theorem charList_eq_of_not_blt (l1 l2 : List Char)
    (h1 : charListBlt l1 l2 = false) (h2 : charListBlt l2 l1 = false) :
    l1 = l2 := by
  induction l1 generalizing l2 with
  | nil =>
    cases l2 with
    | nil => rfl
    | cons b bs => simp [charListBlt] at h1
  | cons a as ih =>
    cases l2 with
    | nil => simp [charListBlt] at h2
    | cons b bs =>
      simp only [charListBlt, Bool.or_eq_false_iff, Bool.and_eq_false_iff,
        decide_eq_false_iff_not] at h1 h2
      have heq : a = b := char_eq_of_not_blt a b h1.1 h2.1
      subst heq
      rcases h1.2 with hne | hr1
      · exact absurd rfl hne
      · rcases h2.2 with hne | hr2
        · exact absurd rfl hne
        · rw [ih bs hr1 hr2]

theorem charListBlt_trans (l1 l2 l3 : List Char)
    (h1 : charListBlt l1 l2 = true) (h2 : charListBlt l2 l3 = true) :
    charListBlt l1 l3 = true := by
  induction l1 generalizing l2 l3 with
  | nil =>
    cases l2 with
    | nil => simp [charListBlt] at h1
    | cons b bs =>
      cases l3 with
      | nil => simp [charListBlt] at h2
      | cons c cs => simp [charListBlt]
  | cons a as ih =>
    cases l2 with
    | nil => simp [charListBlt] at h1
    | cons b bs =>
      cases l3 with
      | nil => simp [charListBlt] at h2
      | cons c cs =>
        simp only [charListBlt, Bool.or_eq_true, Bool.and_eq_true,
          decide_eq_true_eq] at h1 h2 ⊢
        rcases h1 with hab | ⟨habe, hr1⟩
        · rcases h2 with hbc | ⟨hbce, hr2⟩
          · exact Or.inl (charBlt_trans a b c hab hbc)
          · subst hbce
            exact Or.inl hab
        · subst habe
          rcases h2 with hbc | ⟨hbce, hr2⟩
          · exact Or.inl hbc
          · subst hbce
            exact Or.inr ⟨rfl, ih bs cs hr1 hr2⟩

/-- Byte-lexicographic comparison of strings (Rust `String` `Ord`). -/
def strBlt (a b : String) : Bool := charListBlt a.data b.data

theorem str_eq_of_data_eq (a b : String) (h : a.data = b.data) : a = b := by
  cases a
  cases b
  simp only [String.data] at h
  rw [h]

instance : LinKey String where
  blt := strBlt
  blt_asymm := fun a b h => charListBlt_asymm a.data b.data h
  eq_of_not_blt := fun a b h1 h2 =>
    str_eq_of_data_eq a b (charList_eq_of_not_blt a.data b.data h1 h2)
  blt_trans := fun a b c h1 h2 => charListBlt_trans a.data b.data c.data h1 h2

/-- Lexicographic comparison of pairs, the order Rust uses for tuple keys
`(String, String)` in a `BTreeMap`. -/
def pairBlt {A B : Type} [LinKey A] [DecidableEq A] [LinKey B]
    (p q : A × B) : Bool :=
  LinKey.blt p.1 q.1 || (decide (p.1 = q.1) && LinKey.blt p.2 q.2)

theorem pairBlt_asymm {A B : Type} [LinKey A] [DecidableEq A] [LinKey B]
    (p q : A × B) (h : pairBlt p q = true) : pairBlt q p = false := by
  simp only [pairBlt, Bool.or_eq_true, Bool.and_eq_true,
    decide_eq_true_eq] at h
  simp only [pairBlt, Bool.or_eq_false_iff, Bool.and_eq_false_iff,
    decide_eq_false_iff_not]
  rcases h with hab | ⟨heq, hrec⟩
  · refine ⟨LinKey.blt_asymm _ _ hab, Or.inl ?_⟩
    intro he
    rw [he, LinKey.blt_irrefl] at hab
    exact Bool.false_ne_true hab
  · rw [heq]
    exact ⟨LinKey.blt_irrefl _, Or.inr (LinKey.blt_asymm _ _ hrec)⟩

theorem pair_eq_of_not_blt {A B : Type} [LinKey A] [DecidableEq A] [LinKey B]
    (p q : A × B) (h1 : pairBlt p q = false) (h2 : pairBlt q p = false) :
    p = q := by
  simp only [pairBlt, Bool.or_eq_false_iff, Bool.and_eq_false_iff,
    decide_eq_false_iff_not] at h1 h2
  have heq : p.1 = q.1 := LinKey.eq_of_not_blt _ _ h1.1 h2.1
  rcases h1.2 with hne | hr1
  · exact absurd heq hne
  · rcases h2.2 with hne | hr2
    · exact absurd heq.symm hne
    · have h2eq : p.2 = q.2 := LinKey.eq_of_not_blt _ _ hr1 hr2
      exact Prod.ext heq h2eq

theorem pairBlt_trans {A B : Type} [LinKey A] [DecidableEq A] [LinKey B]
    (p q r : A × B) (h1 : pairBlt p q = true) (h2 : pairBlt q r = true) :
    pairBlt p r = true := by
  simp only [pairBlt, Bool.or_eq_true, Bool.and_eq_true,
    decide_eq_true_eq] at h1 h2 ⊢
  rcases h1 with hab | ⟨habe, hr1⟩
  · rcases h2 with hbc | ⟨hbce, hr2⟩
    · exact Or.inl (LinKey.blt_trans _ _ _ hab hbc)
    · rw [← hbce]
      exact Or.inl hab
  · rw [habe]
    rcases h2 with hbc | ⟨hbce, hr2⟩
    · exact Or.inl hbc
    · exact Or.inr ⟨hbce, LinKey.blt_trans _ _ _ hr1 hr2⟩

instance {A B : Type} [LinKey A] [DecidableEq A] [LinKey B] :
    LinKey (A × B) where
  blt := pairBlt
  blt_asymm := pairBlt_asymm
  eq_of_not_blt := pair_eq_of_not_blt
  blt_trans := pairBlt_trans

section SortedMaps

variable {K : Type} [DecidableEq K] [LinKey K]

/-- `entry(k).or_insert(0) += v` on a key-sorted association list:
insert `(k, v)` in order, adding `v` to the stored value when `k` is
already present. -/
def insertAddRaw (k : K) (v : Nat) : List (K × Nat) → List (K × Nat)
  | [] => [(k, v)]
  | (k1, v1) :: rest =>
    if LinKey.blt k k1 then (k, v) :: (k1, v1) :: rest
    else if k = k1 then (k1, v1 + v) :: rest
    else (k1, v1) :: insertAddRaw k v rest

/-- Total value stored for key `k` (`none` when the key is absent). On
lists with no duplicate keys this is exactly `BTreeMap::get`. -/
def lookupRaw (k : K) : List (K × Nat) → Option Nat
  | [] => none
  | (k1, v1) :: rest =>
    if k1 = k then addOpt (some v1) (lookupRaw k rest) else lookupRaw k rest

/-- Keys appear in strictly increasing order (the `BTreeMap` invariant). -/
def KeysSorted (l : List (K × Nat)) : Prop :=
  l.Pairwise (fun a b => LinKey.blt a.1 b.1 = true)

theorem fst_mem_insertAddRaw {k : K} {v : Nat} {l : List (K × Nat)}
    {p : K × Nat} (h : p ∈ insertAddRaw k v l) :
    p.1 = k ∨ p.1 ∈ l.map Prod.fst := by
  induction l with
  | nil =>
    simp only [insertAddRaw, List.mem_singleton] at h
    rw [h]
    exact Or.inl rfl
  | cons hd tl ih =>
    obtain ⟨k1, v1⟩ := hd
    simp only [insertAddRaw] at h
    by_cases hb : LinKey.blt k k1 = true
    · rw [if_pos hb] at h
      rcases List.mem_cons.mp h with h | h
      · rw [h]
        exact Or.inl rfl
      · rcases List.mem_cons.mp h with h | h
        · rw [h]
          exact Or.inr (by simp)
        · exact Or.inr (by
            rw [List.map_cons]
            exact List.mem_cons_of_mem _ (List.mem_map_of_mem Prod.fst h))
    · rw [if_neg hb] at h
      by_cases he : k = k1
      · rw [if_pos he] at h
        rcases List.mem_cons.mp h with h | h
        · rw [h]
          exact Or.inl he.symm
        · exact Or.inr (by
            rw [List.map_cons]
            exact List.mem_cons_of_mem _ (List.mem_map_of_mem Prod.fst h))
      · rw [if_neg he] at h
        rcases List.mem_cons.mp h with h | h
        · rw [h]
          exact Or.inr (by simp)
        · rcases ih h with h' | h'
          · exact Or.inl h'
          · exact Or.inr (by
              rw [List.map_cons]
              exact List.mem_cons_of_mem _ h')

theorem sorted_insertAddRaw {k : K} {v : Nat} {l : List (K × Nat)}
    (hs : KeysSorted l) : KeysSorted (insertAddRaw k v l) := by
  induction l with
  | nil => simp [insertAddRaw, KeysSorted]
  | cons hd tl ih =>
    obtain ⟨k1, v1⟩ := hd
    simp only [KeysSorted, List.pairwise_cons] at hs
    obtain ⟨hhd, htl⟩ := hs
    simp only [insertAddRaw]
    by_cases hb : LinKey.blt k k1 = true
    · rw [if_pos hb]
      simp only [KeysSorted, List.pairwise_cons]
      refine ⟨?_, hhd, htl⟩
      intro p hp
      rcases List.mem_cons.mp hp with hp | hp
      · rw [hp]
        exact hb
      · exact LinKey.blt_trans _ _ _ hb (hhd p hp)
    · rw [if_neg hb]
      by_cases he : k = k1
      · rw [if_pos he]
        simp only [KeysSorted, List.pairwise_cons]
        exact ⟨hhd, htl⟩
      · rw [if_neg he]
        simp only [KeysSorted, List.pairwise_cons]
        refine ⟨?_, ih htl⟩
        intro p hp
        rcases fst_mem_insertAddRaw hp with h' | h'
        · rw [h']
          cases hx : LinKey.blt k1 k with
          | true => rfl
          | false =>
            exact absurd (LinKey.eq_of_not_blt k k1
              (Bool.eq_false_iff.mpr hb) hx) he
        · obtain ⟨q, hq, hq1⟩ := List.mem_map.mp h'
          rw [← hq1]
          exact hhd q hq

theorem lookupRaw_insertAddRaw (k' k : K) (v : Nat) (l : List (K × Nat)) :
    lookupRaw k' (insertAddRaw k v l) =
      if k' = k then addOpt (lookupRaw k' l) (some v) else lookupRaw k' l := by
  induction l with
  | nil =>
    by_cases he : k' = k
    · rw [if_pos he]
      simp only [insertAddRaw, lookupRaw, if_pos he.symm]
      rw [addOpt_comm]
    · rw [if_neg he]
      simp only [insertAddRaw, lookupRaw,
        if_neg (show ¬ k = k' from fun h => he h.symm)]
  | cons hd tl ih =>
    obtain ⟨k1, v1⟩ := hd
    simp only [insertAddRaw]
    by_cases hb : LinKey.blt k k1 = true
    · rw [if_pos hb]
      by_cases he : k' = k
      · rw [if_pos he]
        show lookupRaw k' ((k, v) :: (k1, v1) :: tl) =
          addOpt (lookupRaw k' ((k1, v1) :: tl)) (some v)
        simp only [lookupRaw, if_pos he.symm]
        rw [addOpt_comm]
      · rw [if_neg he]
        show lookupRaw k' ((k, v) :: (k1, v1) :: tl) =
          lookupRaw k' ((k1, v1) :: tl)
        simp only [lookupRaw,
          if_neg (show ¬ k = k' from fun h => he h.symm)]
    · rw [if_neg hb]
      by_cases hk : k = k1
      · rw [if_pos hk]
        by_cases he : k' = k
        · rw [if_pos he]
          have h1 : k1 = k' := by rw [he, hk]
          simp only [lookupRaw, if_pos h1]
          rw [addOpt_comm (addOpt (some v1) (lookupRaw k' tl)) (some v),
            ← addOpt_assoc]
          have hvv : addOpt (some v) (some v1) = some (v1 + v) := by
            simp [addOpt, Nat.add_comm]
          rw [hvv]
        · rw [if_neg he]
          have h1 : ¬ k1 = k' := fun h => he (by rw [← h, ← hk])
          simp only [lookupRaw, if_neg h1]
      · rw [if_neg hk]
        simp only [lookupRaw]
        by_cases h1 : k1 = k'
        · have he : ¬ k' = k := by
            intro h
            exact hk (h1.trans h).symm
          simp only [if_pos h1, if_neg he, ih]
        · simp only [if_neg h1, ih]

theorem lookupRaw_eq_none_of_not_mem {k : K} {l : List (K × Nat)}
    (h : k ∉ l.map Prod.fst) : lookupRaw k l = none := by
  induction l with
  | nil => rfl
  | cons hd tl ih =>
    obtain ⟨k1, v1⟩ := hd
    simp only [List.map_cons, List.mem_cons] at h
    push_neg at h
    simp only [lookupRaw,
      if_neg (show ¬ k1 = k from fun hx => h.1 hx.symm)]
    exact ih h.2

theorem mem_of_lookupRaw_some {k : K} {l : List (K × Nat)} {v : Nat}
    (h : lookupRaw k l = some v) : k ∈ l.map Prod.fst := by
  by_cases hm : k ∈ l.map Prod.fst
  · exact hm
  · rw [lookupRaw_eq_none_of_not_mem hm] at h
    exact absurd h (by simp)

theorem sorted_head_key_min {k1 : K} {v1 : Nat} {t : List (K × Nat)} {k : K}
    (hs : KeysSorted ((k1, v1) :: t)) (hm : k ∈ ((k1, v1) :: t).map Prod.fst) :
    k = k1 ∨ LinKey.blt k1 k = true := by
  simp only [List.map_cons, List.mem_cons] at hm
  rcases hm with hme | hm'
  · exact Or.inl hme
  · obtain ⟨p, hp, hpk⟩ := List.mem_map.mp hm'
    rw [KeysSorted, List.pairwise_cons] at hs
    right
    rw [← hpk]
    exact hs.1 p hp

theorem sorted_lookup_head {k1 : K} {v1 : Nat} {t : List (K × Nat)}
    (hs : KeysSorted ((k1, v1) :: t)) :
    lookupRaw k1 ((k1, v1) :: t) = some v1 := by
  rw [KeysSorted, List.pairwise_cons] at hs
  have hnm : k1 ∉ t.map Prod.fst := by
    intro hm
    obtain ⟨p, hp, hpk⟩ := List.mem_map.mp hm
    have := hs.1 p hp
    rw [hpk, LinKey.blt_irrefl] at this
    exact Bool.false_ne_true this
  simp [lookupRaw, lookupRaw_eq_none_of_not_mem hnm, addOpt_none_right]

theorem sorted_tail_not_mem {k1 : K} {v1 : Nat} {t : List (K × Nat)}
    (hs : KeysSorted ((k1, v1) :: t)) : k1 ∉ t.map Prod.fst := by
  rw [KeysSorted, List.pairwise_cons] at hs
  intro hm
  obtain ⟨p, hp, hpk⟩ := List.mem_map.mp hm
  have := hs.1 p hp
  rw [hpk, LinKey.blt_irrefl] at this
  exact Bool.false_ne_true this

theorem sorted_lookup_ext {l1 l2 : List (K × Nat)} (h1 : KeysSorted l1)
    (h2 : KeysSorted l2) (h : ∀ k, lookupRaw k l1 = lookupRaw k l2) :
    l1 = l2 := by
  induction l1 generalizing l2 with
  | nil =>
    cases l2 with
    | nil => rfl
    | cons hd t2 =>
      obtain ⟨k2, v2⟩ := hd
      have := h k2
      rw [sorted_lookup_head h2] at this
      exact absurd this (by simp [lookupRaw])
  | cons hd t1 ih =>
    obtain ⟨k1, v1⟩ := hd
    cases l2 with
    | nil =>
      have := h k1
      rw [sorted_lookup_head h1] at this
      exact absurd this (by simp [lookupRaw])
    | cons hd2 t2 =>
      obtain ⟨k2, v2⟩ := hd2
      have e1 := sorted_lookup_head h1
      have e2 := sorted_lookup_head h2
      have hm1 : k1 ∈ ((k2, v2) :: t2).map Prod.fst := by
        apply mem_of_lookupRaw_some (v := v1)
        rw [← h k1]
        exact e1
      have hm2 : k2 ∈ ((k1, v1) :: t1).map Prod.fst := by
        apply mem_of_lookupRaw_some (v := v2)
        rw [h k2]
        exact e2
      have hk : k1 = k2 := by
        rcases sorted_head_key_min h2 hm1 with he | hb1
        · exact he
        · rcases sorted_head_key_min h1 hm2 with he | hb2
          · exact he.symm
          · rw [LinKey.blt_asymm _ _ hb1] at hb2
            exact absurd hb2 (by simp)
      subst hk
      have hv : v1 = v2 := by
        have := h k1
        rw [e1, e2] at this
        exact Option.some.inj this
      subst hv
      have htl : ∀ k, lookupRaw k t1 = lookupRaw k t2 := by
        intro k
        by_cases he : k = k1
        · subst he
          rw [lookupRaw_eq_none_of_not_mem (sorted_tail_not_mem h1),
            lookupRaw_eq_none_of_not_mem (sorted_tail_not_mem h2)]
        · have hne : ¬ k1 = k := fun hx => he hx.symm
          have := h k
          simp only [lookupRaw, if_neg hne] at this
          exact this
      rw [KeysSorted, List.pairwise_cons] at h1 h2
      rw [ih h1.2 h2.2 htl]

/-- A key-sorted finite map from `K` to `Nat`: the model of Rust's
`BTreeMap<K, u64>` (and, content-wise, of `HashMap<K, u64>`, whose
iteration order never influences any observable result here). -/
structure SMap (K : Type) [DecidableEq K] [LinKey K] where
  entries : List (K × Nat)
  sorted : KeysSorted entries

def SMap.empty : SMap K := ⟨[], List.Pairwise.nil⟩

def SMap.lookup (m : SMap K) (k : K) : Option Nat := lookupRaw k m.entries

/-- Lookup with default 0: the current count of a key. -/
def SMap.getD (m : SMap K) (k : K) : Nat := (m.lookup k).getD 0

def SMap.contains (m : SMap K) (k : K) : Bool := (m.lookup k).isSome

def SMap.insertAdd (m : SMap K) (k : K) (v : Nat) : SMap K :=
  ⟨insertAddRaw k v m.entries, sorted_insertAddRaw m.sorted⟩

theorem SMap.eq_of_entries {m1 m2 : SMap K} (h : m1.entries = m2.entries) :
    m1 = m2 := by
  cases m1
  cases m2
  simp only at h
  subst h
  rfl

theorem SMap.lookup_ext {m1 m2 : SMap K}
    (h : ∀ k, m1.lookup k = m2.lookup k) : m1 = m2 :=
  SMap.eq_of_entries (sorted_lookup_ext m1.sorted m2.sorted h)

theorem SMap.lookup_insertAdd (m : SMap K) (k k' : K) (v : Nat) :
    (m.insertAdd k v).lookup k' =
      if k' = k then addOpt (m.lookup k') (some v) else m.lookup k' :=
  lookupRaw_insertAddRaw k' k v m.entries

theorem SMap.lookup_empty (k : K) : (SMap.empty : SMap K).lookup k = none :=
  rfl

/-- Folding a list of `(key, value)` increments into a map adds, per key,
the total of the list's values for that key. -/
theorem lookup_foldl_insertAdd (l : List (K × Nat)) (m : SMap K) (k : K) :
    (l.foldl (fun acc p => acc.insertAdd p.1 p.2) m).lookup k =
      addOpt (m.lookup k) (lookupRaw k l) := by
  induction l generalizing m with
  | nil => simp [lookupRaw, addOpt_none_right]
  | cons p rest ih =>
    obtain ⟨kp, vp⟩ := p
    rw [List.foldl_cons, ih, SMap.lookup_insertAdd]
    by_cases he : k = kp
    · rw [if_pos he]
      have hr : lookupRaw k ((kp, vp) :: rest) =
          addOpt (some vp) (lookupRaw k rest) := by
        simp only [lookupRaw, if_pos he.symm]
      rw [hr, ← addOpt_assoc]
    · rw [if_neg he]
      have hr : lookupRaw k ((kp, vp) :: rest) = lookupRaw k rest := by
        simp only [lookupRaw,
          if_neg (show ¬ kp = k from fun hx => he hx.symm)]
      rw [hr]

/-- The per-map half of `merge_ngrams_results`: fold every entry of `m`
into `acc` with `entry(k).or_insert(0) += v`. -/
def SMap.mergeInto (acc m : SMap K) : SMap K :=
  m.entries.foldl (fun a p => a.insertAdd p.1 p.2) acc

theorem SMap.lookup_mergeInto (acc m : SMap K) (k : K) :
    (acc.mergeInto m).lookup k = addOpt (acc.lookup k) (m.lookup k) :=
  lookup_foldl_insertAdd m.entries acc k

theorem SMap.mergeInto_empty_left (m : SMap K) :
    (SMap.empty : SMap K).mergeInto m = m := by
  apply SMap.lookup_ext
  intro k
  rw [SMap.lookup_mergeInto, SMap.lookup_empty, addOpt_none_left]

theorem SMap.fst_mem_mergeInto {acc m : SMap K} {k : K}
    (h : k ∈ (acc.mergeInto m).entries.map Prod.fst) :
    k ∈ acc.entries.map Prod.fst ∨ k ∈ m.entries.map Prod.fst := by
  have hgen : ∀ (l : List (K × Nat)) (a : SMap K),
      k ∈ (l.foldl (fun x p => x.insertAdd p.1 p.2) a).entries.map Prod.fst →
      k ∈ a.entries.map Prod.fst ∨ k ∈ l.map Prod.fst := by
    intro l
    induction l with
    | nil =>
      intro a h'
      exact Or.inl h'
    | cons p rest ih =>
      intro a h'
      simp only [List.foldl_cons] at h'
      rcases ih (a.insertAdd p.1 p.2) h' with h'' | h''
      · obtain ⟨q, hq, hqk⟩ := List.mem_map.mp h''
        rcases fst_mem_insertAddRaw hq with hx | hx
        · rw [← hqk, hx]
          exact Or.inr (by simp)
        · rw [← hqk]
          exact Or.inl hx
      · exact Or.inr (by simp [h''])
  exact hgen m.entries acc h

end SortedMaps

/-! ### Tokenization (src/create_frequencies.rs lines 214-226, src/util.rs) -/

/-- `util.rs`: `pub const OUT_OF_VOCABULARY_WORD: &str = "<unk>";` -/
def OUT_OF_VOCABULARY_WORD : String := "<unk>"

/-- Rust `char::is_whitespace`: the Unicode `White_Space` code points. -/
def rustIsWhitespace (c : Char) : Bool :=
  decide (c.toNat ∈ [0x09, 0x0A, 0x0B, 0x0C, 0x0D, 0x20, 0x85, 0xA0, 0x1680,
    0x2000, 0x2001, 0x2002, 0x2003, 0x2004, 0x2005, 0x2006, 0x2007, 0x2008,
    0x2009, 0x200A, 0x2028, 0x2029, 0x202F, 0x205F, 0x3000])

/-- Rust `char::is_ascii_punctuation`: `!"#$%&'()*+,-./:;<=>?@[\]^_`{|}~`. -/
def isAsciiPunct (c : Char) : Bool :=
  decide ((0x21 ≤ c.toNat ∧ c.toNat ≤ 0x2F) ∨ (0x3A ≤ c.toNat ∧ c.toNat ≤ 0x40) ∨
    (0x5B ≤ c.toNat ∧ c.toNat ≤ 0x60) ∨ (0x7B ≤ c.toNat ∧ c.toNat ≤ 0x7E))

/-- The trimming predicate of `calculate_ngrams` (and of `get_dictionary`):
`c.is_ascii_punctuation() || c.is_whitespace()`. -/
def trimPred (c : Char) : Bool := isAsciiPunct c || rustIsWhitespace c

/-- Rust `str::split_whitespace`: split on runs of Unicode whitespace,
yielding only the non-empty pieces, in order. -/
def splitWsAux : List Char → List Char → List String
  | [], [] => []
  | [], cur => [String.mk cur.reverse]
  | c :: rest, cur =>
    if rustIsWhitespace c then
      match cur with
      | [] => splitWsAux rest []
      | _ :: _ => String.mk cur.reverse :: splitWsAux rest []
    else splitWsAux rest (c :: cur)

def rustSplitWhitespace (s : String) : List String := splitWsAux s.data []

/-- Rust `str::trim_matches(p)`: remove the longest run of characters
matching `p` from both ends. -/
def rustTrimMatches (p : Char → Bool) (s : String) : String :=
  String.mk (((s.data.dropWhile p).reverse.dropWhile p).reverse)

/-- The out-of-vocabulary substitution of `calculate_ngrams`: a trimmed
token maps to itself when the dictionary contains it and to
`OUT_OF_VOCABULARY_WORD` otherwise. -/
def mapToken (dict : List String) (t : String) : String :=
  if t ∈ dict then t else OUT_OF_VOCABULARY_WORD

/-- The token sequence `calculate_ngrams` builds from one line:
`split_whitespace`, trim punctuation/whitespace from both ends, then OOV
substitution. -/
def lineTokens (dict : List String) (line : String) : List String :=
  ((rustSplitWhitespace line).map (rustTrimMatches trimPred)).map
    (mapToken dict)

/-- Modelled from `util.rs::get_dictionary` (whose embedded dictionary
files are not under src/): drop comment lines starting with `#`, trim
punctuation/whitespace, and drop entries that trim to the empty string.
The upstream NFKC normalization is abstracted as the function `normalize`
applied to each raw line before filtering. -/
def dictFromLines (normalize : String → String) (ls : List String) :
    List String :=
  (((ls.map normalize).filter (fun l => ¬ l.startsWith "#")).map
    (rustTrimMatches trimPred)).filter (fun l => l ≠ "")

/-! ### The n-gram data model (src/create_frequencies.rs lines 184-263) -/

/-- `struct NgramsResult`: one partial (per-shard) or merged corpus-wide
result. `unigram_counts` and `bigram_counts` are `BTreeMap`s;
`unigram_article_counts` is a `HashMap`, modelled with the same sorted
representation (its iteration order influences nothing observable). -/
structure NgramsResult where
  total_unigrams : Nat
  unigram_counts : SMap String
  unigram_article_counts : SMap String
  bigram_counts : SMap (String × String)

theorem NgramsResult.eq_of_fields {r1 r2 : NgramsResult}
    (h1 : r1.total_unigrams = r2.total_unigrams)
    (h2 : r1.unigram_counts = r2.unigram_counts)
    (h3 : r1.unigram_article_counts = r2.unigram_article_counts)
    (h4 : r1.bigram_counts = r2.bigram_counts) : r1 = r2 := by
  cases r1
  cases r2
  simp only at h1 h2 h3 h4
  rw [h1, h2, h3, h4]

def emptyNgrams : NgramsResult :=
  ⟨0, SMap.empty, SMap.empty, SMap.empty⟩

/-- The adjacent pairs `tokens.iter().zip(tokens.iter().skip(1))`. -/
def listPairs (ts : List String) : List (String × String) := ts.zip ts.tail

/-- The body of the sliding-window loop of `calculate_ngrams`: for the
pair `(token1, token2)` increment `total_unigrams`, `unigram_counts[token1]`
and `bigram_counts[(token1, token2)]`, and add `token1` to the per-line
`seen_unigrams` set (modelled as a duplicate-free list in first-insertion
order). -/
def pairStep (acc : NgramsResult × List String) (p : String × String) :
    NgramsResult × List String :=
  ({ acc.1 with
      total_unigrams := acc.1.total_unigrams + 1
      unigram_counts := acc.1.unigram_counts.insertAdd p.1 1
      bigram_counts := acc.1.bigram_counts.insertAdd p 1 },
   if p.1 ∈ acc.2 then acc.2 else acc.2 ++ [p.1])

/-- The sliding-window loop of `calculate_ngrams` over one line's token
sequence, with an initially empty `seen_unigrams` set. -/
def pairLoop (r : NgramsResult) (ts : List String) :
    NgramsResult × List String :=
  (listPairs ts).foldl pairStep (r, [])

/-- "The iteration above missed the last token as a unigram so we tack it
on here": `tokens[tokens.len() - 1]` is counted once, but only when
`tokens.len() >= 2`. -/
def addLastToken (r : NgramsResult) (ts : List String) : NgramsResult :=
  if 2 ≤ ts.length then
    { r with
        total_unigrams := r.total_unigrams + 1
        unigram_counts := r.unigram_counts.insertAdd (ts.getLastD "") 1 }
  else r

/-- The final loop of `calculate_ngrams` over one line: one article-count
increment per member of `seen_unigrams`. -/
def addArticleCounts (r : NgramsResult) (seen : List String) :
    NgramsResult :=
  { r with
      unigram_article_counts :=
        seen.foldl (fun m t => m.insertAdd t 1) r.unigram_article_counts }

/-- Processing of one line of a shard by `calculate_ngrams`, given the
line's mapped token sequence: the sliding-window loop, then the
last-token unigram (only when the line has at least two tokens), then one
article-count increment per distinct `seen_unigrams` member. -/
def processLine (r : NgramsResult) (ts : List String) : NgramsResult :=
  addArticleCounts (addLastToken (pairLoop r ts).1 ts) (pairLoop r ts).2

/-- `calculate_ngrams`: fold the per-line processing over the lines of one
shard file, starting from empty tables. -/
def calculate_ngrams (dict : List String) (lines : List String) :
    NgramsResult :=
  lines.foldl (fun r line => processLine r (lineTokens dict line)) emptyNgrams

/-- Merging one `NgramsResult` into the accumulator, as done by the loop
body of `merge_ngrams_results`: add `total_unigrams` and fold every entry
of every table into the accumulator's table. -/
def mergeTwo (acc r : NgramsResult) : NgramsResult :=
  { total_unigrams := acc.total_unigrams + r.total_unigrams
    unigram_counts := acc.unigram_counts.mergeInto r.unigram_counts
    unigram_article_counts :=
      acc.unigram_article_counts.mergeInto r.unigram_article_counts
    bigram_counts := acc.bigram_counts.mergeInto r.bigram_counts }

/-- `merge_ngrams_results`: fold the stream of partial results into one
result, starting from empty tables. -/
def merge_ngrams_results (rs : List NgramsResult) : NgramsResult :=
  rs.foldl mergeTwo emptyNgrams

/-! ### Thresholded serialization (src/create_frequencies.rs lines 16, 35-85) -/

/-- `const MINIMUM_ARTICLE_THRESHOLD: u64 = 40;` -/
def MINIMUM_ARTICLE_THRESHOLD : Nat := 40

/-- `u64::max_value()`, the default used when a token is absent from
`unigram_article_counts`. -/
def U64_MAX : Nat := 2 ^ 64 - 1

/-- The filter of `persist_to_file`:
`*self.unigram_article_counts.get(token).unwrap_or(&u64::max_value()) > MINIMUM_ARTICLE_THRESHOLD`. -/
def passesThreshold (r : NgramsResult) (t : String) : Bool :=
  decide (MINIMUM_ARTICLE_THRESHOLD <
    (r.unigram_article_counts.lookup t).getD U64_MAX)

/-- The `(token, count)` unigram entries `persist_to_file` writes, in map
(= ascending key) order. -/
def writtenUnigrams (r : NgramsResult) : List (String × Nat) :=
  r.unigram_counts.entries.filter (fun p => passesThreshold r p.1)

/-- The `((token1, token2), count)` bigram entries `persist_to_file`
writes, in map (= ascending key) order. -/
def writtenBigrams (r : NgramsResult) : List ((String × String) × Nat) :=
  r.bigram_counts.entries.filter
    (fun p => passesThreshold r p.1.1 && passesThreshold r p.1.2)

/-- The decompressed text `persist_to_file` emits, line by line. -/
def persistLines (r : NgramsResult) : List String :=
  ["\\data\\",
   "total unigrams = " ++ toString r.total_unigrams,
   "ngram 1 = " ++ toString r.unigram_counts.entries.length,
   "ngram 2 = " ++ toString r.bigram_counts.entries.length,
   "",
   "\\1-grams:"] ++
  (writtenUnigrams r).map (fun p => toString p.2 ++ "\t" ++ p.1) ++
  ["",
   "\\2-grams:"] ++
  (writtenBigrams r).map
    (fun p => toString p.2 ++ "\t" ++ p.1.1 ++ "\t" ++ p.1.2) ++
  ["",
   "\\end\\"]

/-! ### Counting helper lemmas -/

/-- The optional counter holding `n` occurrences: absent when `n = 0`. -/
def countOpt : Nat → Option Nat
  | 0 => none
  | n + 1 => some (n + 1)

theorem addOpt_one_countOpt (c : Nat) :
    addOpt (some 1) (countOpt c) = countOpt (c + 1) := by
  cases c <;> simp [countOpt, addOpt, Nat.add_comm]

theorem countOpt_getD (c : Nat) : (countOpt c).getD 0 = c := by
  cases c <;> simp [countOpt]

theorem countOpt_isSome (c : Nat) : (countOpt c).isSome = decide (0 < c) := by
  cases c <;> simp [countOpt]

/-- Number of occurrences of `k` in a list (kept instance-free). -/
def countKey {K : Type} [DecidableEq K] (k : K) : List K → Nat
  | [] => 0
  | a :: rest => (if a = k then 1 else 0) + countKey k rest

theorem countKey_append {K : Type} [DecidableEq K] (k : K) (l1 l2 : List K) :
    countKey k (l1 ++ l2) = countKey k l1 + countKey k l2 := by
  induction l1 with
  | nil => simp [countKey]
  | cons a rest ih =>
    show (if a = k then 1 else 0) + countKey k (rest ++ l2) =
      ((if a = k then 1 else 0) + countKey k rest) + countKey k l2
    rw [ih]
    omega

theorem countKey_eq_zero {K : Type} [DecidableEq K] {k : K} {l : List K}
    (h : k ∉ l) : countKey k l = 0 := by
  induction l with
  | nil => rfl
  | cons a rest ih =>
    simp only [List.mem_cons] at h
    push_neg at h
    show (if a = k then 1 else 0) + countKey k rest = 0
    rw [if_neg (show ¬ a = k from fun hx => h.1 hx.symm), ih h.2]

theorem countKey_pos {K : Type} [DecidableEq K] {k : K} {l : List K}
    (h : k ∈ l) : 0 < countKey k l := by
  induction l with
  | nil => simp at h
  | cons a rest ih =>
    rcases List.mem_cons.mp h with h' | h'
    · simp only [countKey, if_pos h'.symm]
      omega
    · simp only [countKey]
      have := ih h'
      omega

theorem countKey_nodup_mem {K : Type} [DecidableEq K] {k : K} {l : List K}
    (hnd : l.Nodup) (h : k ∈ l) : countKey k l = 1 := by
  induction l with
  | nil => simp at h
  | cons a rest ih =>
    rw [List.nodup_cons] at hnd
    rcases List.mem_cons.mp h with h' | h'
    · rw [← h'] at hnd
      simp only [countKey, if_pos h'.symm, countKey_eq_zero hnd.1]
    · have hak : ¬ a = k := by
        intro hx
        rw [hx] at hnd
        exact hnd.1 h'
      simp only [countKey, if_neg hak, ih hnd.2 h']

section FoldOne

variable {K : Type} [DecidableEq K] [LinKey K]

/-- Folding unit increments for the keys of `l` into `m` adds, per key,
the number of occurrences of that key in `l`. -/
theorem lookup_foldl_insertOne (l : List K) (m : SMap K) (k : K) :
    (l.foldl (fun m t => m.insertAdd t 1) m).lookup k =
      addOpt (m.lookup k) (countOpt (countKey k l)) := by
  induction l generalizing m with
  | nil => simp [countOpt, countKey, addOpt_none_right]
  | cons t rest ih =>
    rw [List.foldl_cons, ih, SMap.lookup_insertAdd]
    simp only [countKey]
    by_cases he : k = t
    · rw [if_pos he, if_pos he.symm, addOpt_assoc, addOpt_one_countOpt,
        Nat.add_comm]
    · rw [if_neg he, if_neg (fun hx => he hx.symm), Nat.zero_add]

theorem getD_foldl_insertOne (l : List K) (m : SMap K) (k : K) :
    (l.foldl (fun m t => m.insertAdd t 1) m).getD k =
      m.getD k + countKey k l := by
  simp only [SMap.getD, lookup_foldl_insertOne, addOpt_getD, countOpt_getD]

theorem contains_foldl_insertOne (l : List K) (m : SMap K) (k : K) :
    (l.foldl (fun m t => m.insertAdd t 1) m).contains k =
      (m.contains k || decide (k ∈ l)) := by
  simp only [SMap.contains, lookup_foldl_insertOne, addOpt_isSome,
    countOpt_isSome]
  by_cases hm : k ∈ l
  · simp [hm, countKey_pos hm]
  · simp [hm, countKey_eq_zero hm]

theorem fst_mem_foldl_insertOne {l : List K} {m : SMap K} {k : K}
    (h : k ∈ (l.foldl (fun m t => m.insertAdd t 1) m).entries.map Prod.fst) :
    k ∈ m.entries.map Prod.fst ∨ k ∈ l := by
  induction l generalizing m with
  | nil => exact Or.inl h
  | cons t rest ih =>
    rw [List.foldl_cons] at h
    rcases ih h with h' | h'
    · obtain ⟨q, hq, hqk⟩ := List.mem_map.mp h'
      rcases fst_mem_insertAddRaw hq with hx | hx
      · rw [← hqk, hx]
        exact Or.inr (by simp)
      · rw [← hqk]
        exact Or.inl hx
    · exact Or.inr (List.mem_cons_of_mem t h')

end FoldOne

/-! ### Structure of the sliding-window pair list -/

theorem listPairs_map_fst (ts : List String) :
    (listPairs ts).map Prod.fst = ts.dropLast := by
  induction ts with
  | nil => rfl
  | cons a tl ih =>
    cases tl with
    | nil => rfl
    | cons b tl2 =>
      have hstep : listPairs (a :: b :: tl2) =
          (a, b) :: listPairs (b :: tl2) := rfl
      rw [hstep, List.map_cons, ih]
      rfl

theorem listPairs_length (ts : List String) :
    (listPairs ts).length = ts.length - 1 := by
  simp only [listPairs, List.length_zip, List.length_tail]
  omega

theorem listPairs_mem (p : String × String) (ts : List String)
    (h : p ∈ listPairs ts) : p.1 ∈ ts ∧ p.2 ∈ ts := by
  obtain ⟨a, b⟩ := p
  have := List.of_mem_zip h
  exact ⟨this.1, List.mem_of_mem_tail this.2⟩

/-! ### The sliding-window loop, characterized field by field -/

theorem pairLoop_spec (l : List (String × String)) (r : NgramsResult)
    (s0 : List String) :
    (l.foldl pairStep (r, s0)).1.total_unigrams =
        r.total_unigrams + l.length ∧
    (l.foldl pairStep (r, s0)).1.unigram_counts =
        (l.map Prod.fst).foldl (fun m t => m.insertAdd t 1)
          r.unigram_counts ∧
    (l.foldl pairStep (r, s0)).1.bigram_counts =
        l.foldl (fun m p => m.insertAdd p 1) r.bigram_counts ∧
    (l.foldl pairStep (r, s0)).1.unigram_article_counts =
        r.unigram_article_counts ∧
    (∀ t, t ∈ (l.foldl pairStep (r, s0)).2 ↔
        t ∈ s0 ∨ t ∈ l.map Prod.fst) ∧
    (s0.Nodup → (l.foldl pairStep (r, s0)).2.Nodup) := by
  induction l generalizing r s0 with
  | nil =>
    refine ⟨by simp, rfl, rfl, rfl, fun t => by simp, fun h => h⟩
  | cons p rest ih =>
    rw [List.foldl_cons]
    have hstep : pairStep (r, s0) p =
        ({ r with
            total_unigrams := r.total_unigrams + 1
            unigram_counts := r.unigram_counts.insertAdd p.1 1
            bigram_counts := r.bigram_counts.insertAdd p 1 },
         if p.1 ∈ s0 then s0 else s0 ++ [p.1]) := rfl
    rw [hstep]
    obtain ⟨ih1, ih2, ih3, ih4, ih5, ih6⟩ := ih
      { r with
          total_unigrams := r.total_unigrams + 1
          unigram_counts := r.unigram_counts.insertAdd p.1 1
          bigram_counts := r.bigram_counts.insertAdd p 1 }
      (if p.1 ∈ s0 then s0 else s0 ++ [p.1])
    refine ⟨?_, ?_, ?_, ?_, ?_, ?_⟩
    · rw [ih1]
      simp only [List.length_cons]
      omega
    · rw [ih2, List.map_cons, List.foldl_cons]
    · rw [ih3, List.foldl_cons]
    · rw [ih4]
    · intro t
      rw [ih5 t]
      by_cases hmem : p.1 ∈ s0
      · rw [if_pos hmem, List.map_cons, List.mem_cons]
        constructor
        · rintro (h | h)
          · exact Or.inl h
          · exact Or.inr (Or.inr h)
        · rintro (h | h | h)
          · exact Or.inl h
          · rw [h]
            exact Or.inl hmem
          · exact Or.inr h
      · rw [if_neg hmem, List.map_cons, List.mem_cons]
        rw [List.mem_append, List.mem_singleton]
        constructor
        · rintro ((h | h) | h)
          · exact Or.inl h
          · exact Or.inr (Or.inl h)
          · exact Or.inr (Or.inr h)
        · rintro (h | h | h)
          · exact Or.inl (Or.inl h)
          · exact Or.inl (Or.inr h)
          · exact Or.inr h
    · intro hnd
      apply ih6
      by_cases hmem : p.1 ∈ s0
      · rw [if_pos hmem]
        exact hnd
      · rw [if_neg hmem]
        rw [List.nodup_append]
        refine ⟨hnd, List.nodup_singleton _, ?_⟩
        intro a ha hb
        rw [List.mem_singleton] at hb
        rw [hb] at ha
        exact hmem ha

/-! ### Closed forms for one line of `calculate_ngrams` -/

theorem getLastD_of_ne_nil (ts : List String) (h : ts ≠ []) :
    ts.getLastD "" = ts.getLast h := by
  rw [List.getLastD_eq_getLast?, List.getLast?_eq_getLast ts h, Option.getD_some]

theorem processLine_short (r : NgramsResult) (ts : List String)
    (h : ts.length ≤ 1) : processLine r ts = r := by
  have hpairs : listPairs ts = [] := by
    cases ts with
    | nil => rfl
    | cons a tl =>
      cases tl with
      | nil => rfl
      | cons b tl2 => simp at h
  have hlen : ¬ 2 ≤ ts.length := by omega
  rw [processLine, pairLoop, hpairs]
  rw [show ([] : List (String × String)).foldl pairStep (r, []) = (r, [])
    from rfl]
  rw [addLastToken, if_neg hlen, addArticleCounts]
  rw [show (([] : List String).foldl (fun m t => m.insertAdd t 1)
    r.unigram_article_counts) = r.unigram_article_counts from rfl]

theorem processLine_total (r : NgramsResult) (ts : List String)
    (h : 2 ≤ ts.length) :
    (processLine r ts).total_unigrams = r.total_unigrams + ts.length := by
  have hp := (pairLoop_spec (listPairs ts) r []).1
  have hlen := listPairs_length ts
  rw [processLine, addArticleCounts]
  show (addLastToken (pairLoop r ts).1 ts).total_unigrams = _
  rw [addLastToken, if_pos h]
  show (pairLoop r ts).1.total_unigrams + 1 = _
  rw [pairLoop, hp, hlen]
  omega

theorem processLine_uc_getD (r : NgramsResult) (ts : List String)
    (h : 2 ≤ ts.length) (t : String) :
    (processLine r ts).unigram_counts.getD t =
      r.unigram_counts.getD t + countKey t ts := by
  have hne : ts ≠ [] := by
    intro hx
    rw [hx] at h
    simp at h
  have hp := (pairLoop_spec (listPairs ts) r []).2.1
  rw [processLine, addArticleCounts]
  show (addLastToken (pairLoop r ts).1 ts).unigram_counts.getD t = _
  rw [addLastToken, if_pos h]
  show ((pairLoop r ts).1.unigram_counts.insertAdd (ts.getLastD "") 1).getD
    t = _
  have hlast : (((pairLoop r ts).1.unigram_counts.insertAdd
      (ts.getLastD "") 1)).getD t =
      (pairLoop r ts).1.unigram_counts.getD t +
        (if t = ts.getLastD "" then 1 else 0) := by
    rw [SMap.getD, SMap.lookup_insertAdd]
    by_cases he : t = ts.getLastD ""
    · rw [if_pos he, if_pos he, addOpt_getD]
      rfl
    · rw [if_neg he, if_neg he, Nat.add_zero]
      rfl
  rw [hlast, pairLoop, hp, getD_foldl_insertOne, listPairs_map_fst]
  have hsplit : countKey t ts =
      countKey t ts.dropLast + (if t = ts.getLastD "" then 1 else 0) := by
    conv_lhs => rw [← List.dropLast_append_getLast hne]
    rw [countKey_append, getLastD_of_ne_nil ts hne]
    simp only [countKey]
    by_cases he : t = ts.getLast hne
    · rw [if_pos he.symm, if_pos he]
    · rw [if_neg (fun hx => he hx.symm), if_neg he]
  omega

theorem processLine_bc_getD (r : NgramsResult) (ts : List String)
    (t1 t2 : String) :
    (processLine r ts).bigram_counts.getD (t1, t2) =
      r.bigram_counts.getD (t1, t2) + countKey (t1, t2) (listPairs ts) := by
  have hp := (pairLoop_spec (listPairs ts) r []).2.2.1
  rw [processLine, addArticleCounts]
  show (addLastToken (pairLoop r ts).1 ts).bigram_counts.getD (t1, t2) = _
  have hbl : (addLastToken (pairLoop r ts).1 ts).bigram_counts =
      (pairLoop r ts).1.bigram_counts := by
    rw [addLastToken]
    by_cases h2 : 2 ≤ ts.length
    · rw [if_pos h2]
    · rw [if_neg h2]
  rw [hbl, pairLoop, hp]
  exact getD_foldl_insertOne (listPairs ts) r.bigram_counts (t1, t2)

/-- `seen_unigrams` at the end of a line, as a predicate: exactly the
tokens in all but the last position. -/
theorem pairLoop_seen (r : NgramsResult) (ts : List String) :
    ∀ t, t ∈ (pairLoop r ts).2 ↔ t ∈ ts.dropLast := by
  intro t
  rw [pairLoop, (pairLoop_spec (listPairs ts) r []).2.2.2.2.1 t,
    listPairs_map_fst]
  simp

theorem pairLoop_seen_nodup (r : NgramsResult) (ts : List String) :
    (pairLoop r ts).2.Nodup := by
  exact (pairLoop_spec (listPairs ts) r []).2.2.2.2.2 List.nodup_nil

theorem processLine_art_lookup (r : NgramsResult) (ts : List String)
    (t : String) :
    (processLine r ts).unigram_article_counts.lookup t =
      addOpt (r.unigram_article_counts.lookup t)
        (if t ∈ ts.dropLast then some 1 else none) := by
  have hart : (addLastToken (pairLoop r ts).1 ts).unigram_article_counts =
      r.unigram_article_counts := by
    have h1 : (pairLoop r ts).1.unigram_article_counts =
        r.unigram_article_counts :=
      (pairLoop_spec (listPairs ts) r []).2.2.2.1
    rw [addLastToken]
    by_cases h2 : 2 ≤ ts.length
    · rw [if_pos h2]
      exact h1
    · rw [if_neg h2]
      exact h1
  rw [processLine, addArticleCounts]
  show ((pairLoop r ts).2.foldl (fun m t => m.insertAdd t 1)
    (addLastToken (pairLoop r ts).1 ts).unigram_article_counts).lookup t = _
  rw [lookup_foldl_insertOne, hart]
  have hcnt : countKey t (pairLoop r ts).2 =
      if t ∈ ts.dropLast then 1 else 0 := by
    by_cases hm : t ∈ ts.dropLast
    · rw [if_pos hm]
      exact countKey_nodup_mem (pairLoop_seen_nodup r ts)
        ((pairLoop_seen r ts t).mpr hm)
    · rw [if_neg hm]
      exact countKey_eq_zero (fun hx => hm ((pairLoop_seen r ts t).mp hx))
  rw [hcnt]
  by_cases hm : t ∈ ts.dropLast
  · rw [if_pos hm, if_pos hm]
    rfl
  · rw [if_neg hm, if_neg hm]
    rfl

theorem processLine_art_getD (r : NgramsResult) (ts : List String)
    (t : String) :
    (processLine r ts).unigram_article_counts.getD t =
      r.unigram_article_counts.getD t +
        (if t ∈ ts.dropLast then 1 else 0) := by
  rw [SMap.getD, processLine_art_lookup, addOpt_getD]
  by_cases hm : t ∈ ts.dropLast
  · rw [if_pos hm, if_pos hm]
    rfl
  · rw [if_neg hm, if_neg hm]
    rfl

theorem processLine_uc_lookup (r : NgramsResult) (ts : List String)
    (t : String) :
    (processLine r ts).unigram_counts.lookup t =
      addOpt (addOpt (r.unigram_counts.lookup t)
          (countOpt (countKey t ts.dropLast)))
        (if 2 ≤ ts.length then
          (if t = ts.getLastD "" then some 1 else none) else none) := by
  have hp := (pairLoop_spec (listPairs ts) r []).2.1
  rw [processLine, addArticleCounts]
  show (addLastToken (pairLoop r ts).1 ts).unigram_counts.lookup t = _
  rw [addLastToken]
  by_cases h2 : 2 ≤ ts.length
  · rw [if_pos h2, if_pos h2]
    show ((pairLoop r ts).1.unigram_counts.insertAdd
      (ts.getLastD "") 1).lookup t = _
    rw [SMap.lookup_insertAdd, pairLoop, hp, lookup_foldl_insertOne,
      listPairs_map_fst]
    by_cases he : t = ts.getLastD ""
    · rw [if_pos he, if_pos he]
    · rw [if_neg he, if_neg he, addOpt_none_right]
  · rw [if_neg h2, if_neg h2, addOpt_none_right]
    show (pairLoop r ts).1.unigram_counts.lookup t = _
    rw [pairLoop, hp, lookup_foldl_insertOne, listPairs_map_fst]

theorem processLine_bc_lookup (r : NgramsResult) (ts : List String)
    (p : String × String) :
    (processLine r ts).bigram_counts.lookup p =
      addOpt (r.bigram_counts.lookup p)
        (countOpt (countKey p (listPairs ts))) := by
  have hp := (pairLoop_spec (listPairs ts) r []).2.2.1
  rw [processLine, addArticleCounts]
  show (addLastToken (pairLoop r ts).1 ts).bigram_counts.lookup p = _
  have hbl : (addLastToken (pairLoop r ts).1 ts).bigram_counts =
      (pairLoop r ts).1.bigram_counts := by
    rw [addLastToken]
    by_cases h2 : 2 ≤ ts.length
    · rw [if_pos h2]
    · rw [if_neg h2]
  rw [hbl, pairLoop, hp, lookup_foldl_insertOne]

/-! ### Contains / membership bridges -/

theorem countKey_pos_iff {K : Type} [DecidableEq K] (k : K) (l : List K) :
    0 < countKey k l ↔ k ∈ l := by
  constructor
  · intro h
    by_contra hm
    rw [countKey_eq_zero hm] at h
    exact Nat.lt_irrefl 0 h
  · exact countKey_pos

theorem lookupRaw_isSome_of_mem {K : Type} [DecidableEq K]
    {k : K} {l : List (K × Nat)} (h : k ∈ l.map Prod.fst) :
    (lookupRaw k l).isSome = true := by
  induction l with
  | nil => simp at h
  | cons hd tl ih =>
    obtain ⟨k1, v1⟩ := hd
    by_cases he : k1 = k
    · simp only [lookupRaw, if_pos he, addOpt_isSome]
      simp
    · simp only [List.map_cons, List.mem_cons] at h
      rcases h with h | h
      · exact absurd h.symm he
      · simp only [lookupRaw, if_neg he]
        exact ih h

theorem SMap.contains_iff_mem {K : Type} [DecidableEq K] [LinKey K]
    (m : SMap K) (k : K) :
    m.contains k = true ↔ k ∈ m.entries.map Prod.fst := by
  constructor
  · intro h
    rw [SMap.contains, SMap.lookup] at h
    obtain ⟨v, hv⟩ := Option.isSome_iff_exists.mp h
    exact mem_of_lookupRaw_some hv
  · intro h
    exact lookupRaw_isSome_of_mem h

theorem SMap.contains_empty {K : Type} [DecidableEq K] [LinKey K] (k : K) :
    (SMap.empty : SMap K).contains k = false := rfl

theorem SMap.contains_mergeInto {K : Type} [DecidableEq K] [LinKey K]
    (acc m : SMap K) (k : K) :
    (acc.mergeInto m).contains k = (acc.contains k || m.contains k) := by
  rw [SMap.contains, SMap.lookup_mergeInto, addOpt_isSome]
  rfl

theorem SMap.getD_mergeInto {K : Type} [DecidableEq K] [LinKey K]
    (acc m : SMap K) (k : K) :
    (acc.mergeInto m).getD k = acc.getD k + m.getD k := by
  rw [SMap.getD, SMap.lookup_mergeInto, addOpt_getD]
  rfl

theorem processLine_uc_getD_all (r : NgramsResult) (ts : List String)
    (t : String) :
    (processLine r ts).unigram_counts.getD t =
      r.unigram_counts.getD t + countKey t ts.dropLast +
        (if 2 ≤ ts.length ∧ t = ts.getLastD "" then 1 else 0) := by
  rw [SMap.getD, processLine_uc_lookup, addOpt_getD, addOpt_getD,
    countOpt_getD]
  by_cases h2 : 2 ≤ ts.length
  · by_cases he : t = ts.getLastD ""
    · rw [if_pos h2, if_pos he, if_pos ⟨h2, he⟩]
      rfl
    · rw [if_pos h2, if_neg he, if_neg (fun hx => he hx.2)]
      rfl
  · rw [if_neg h2, if_neg (fun hx => h2 hx.1)]
    rfl

theorem processLine_uc_contains (r : NgramsResult) (ts : List String)
    (t : String) :
    (processLine r ts).unigram_counts.contains t = true ↔
      r.unigram_counts.contains t = true ∨ t ∈ ts.dropLast ∨
        (2 ≤ ts.length ∧ t = ts.getLastD "") := by
  rw [SMap.contains, processLine_uc_lookup, addOpt_isSome, addOpt_isSome,
    countOpt_isSome]
  constructor
  · intro h
    rcases Bool.or_eq_true_iff.mp h with h' | h'
    · rcases Bool.or_eq_true_iff.mp h' with h'' | h''
      · exact Or.inl h''
      · exact Or.inr (Or.inl
          ((countKey_pos_iff t ts.dropLast).mp (of_decide_eq_true h'')))
    · by_cases h2 : 2 ≤ ts.length
      · rw [if_pos h2] at h'
        by_cases he : t = ts.getLastD ""
        · exact Or.inr (Or.inr ⟨h2, he⟩)
        · rw [if_neg he] at h'
          exact absurd h' (by simp)
      · rw [if_neg h2] at h'
        exact absurd h' (by simp)
  · intro h
    rcases h with h | h | h
    · rw [SMap.contains] at h
      rw [h]
      rfl
    · have : decide (0 < countKey t ts.dropLast) = true :=
        decide_eq_true ((countKey_pos_iff t ts.dropLast).mpr h)
      rw [this]
      simp
    · rw [if_pos h.1, if_pos h.2]
      simp

theorem processLine_art_contains (r : NgramsResult) (ts : List String)
    (t : String) :
    (processLine r ts).unigram_article_counts.contains t = true ↔
      r.unigram_article_counts.contains t = true ∨ t ∈ ts.dropLast := by
  rw [SMap.contains, processLine_art_lookup, addOpt_isSome]
  by_cases hm : t ∈ ts.dropLast
  · rw [if_pos hm]
    simp [hm]
  · rw [if_neg hm]
    simp only [Option.isSome_none, Bool.or_false]
    constructor
    · intro h
      exact Or.inl h
    · intro h
      rcases h with h | h
      · exact h
      · exact absurd h hm

theorem processLine_bc_contains (r : NgramsResult) (ts : List String)
    (p : String × String) :
    (processLine r ts).bigram_counts.contains p = true ↔
      r.bigram_counts.contains p = true ∨ p ∈ listPairs ts := by
  rw [SMap.contains, processLine_bc_lookup, addOpt_isSome, countOpt_isSome]
  constructor
  · intro h
    rcases Bool.or_eq_true_iff.mp h with h' | h'
    · exact Or.inl h'
    · exact Or.inr
        ((countKey_pos_iff p (listPairs ts)).mp (of_decide_eq_true h'))
  · intro h
    rcases h with h | h
    · rw [SMap.contains] at h
      rw [h]
      rfl
    · have : decide (0 < countKey p (listPairs ts)) = true :=
        decide_eq_true ((countKey_pos_iff p (listPairs ts)).mpr h)
      rw [this]
      simp

/-! ### Merging, field by field -/

theorem mergeTwo_empty_left (r : NgramsResult) :
    mergeTwo emptyNgrams r = r := by
  apply NgramsResult.eq_of_fields
  · exact Nat.zero_add r.total_unigrams
  · exact SMap.mergeInto_empty_left r.unigram_counts
  · exact SMap.mergeInto_empty_left r.unigram_article_counts
  · exact SMap.mergeInto_empty_left r.bigram_counts

theorem mergeTwo_uc (a b : NgramsResult) :
    (mergeTwo a b).unigram_counts =
      a.unigram_counts.mergeInto b.unigram_counts := rfl

theorem mergeTwo_art (a b : NgramsResult) :
    (mergeTwo a b).unigram_article_counts =
      a.unigram_article_counts.mergeInto b.unigram_article_counts := rfl

theorem mergeTwo_bc (a b : NgramsResult) :
    (mergeTwo a b).bigram_counts =
      a.bigram_counts.mergeInto b.bigram_counts := rfl

theorem mergeTwo_total (a b : NgramsResult) :
    (mergeTwo a b).total_unigrams =
      a.total_unigrams + b.total_unigrams := rfl

theorem mergeTwo_comm (a b : NgramsResult) : mergeTwo a b = mergeTwo b a := by
  apply NgramsResult.eq_of_fields
  · exact Nat.add_comm a.total_unigrams b.total_unigrams
  · exact SMap.lookup_ext fun k => by
      rw [mergeTwo_uc, mergeTwo_uc, SMap.lookup_mergeInto,
        SMap.lookup_mergeInto, addOpt_comm]
  · exact SMap.lookup_ext fun k => by
      rw [mergeTwo_art, mergeTwo_art, SMap.lookup_mergeInto,
        SMap.lookup_mergeInto, addOpt_comm]
  · exact SMap.lookup_ext fun k => by
      rw [mergeTwo_bc, mergeTwo_bc, SMap.lookup_mergeInto,
        SMap.lookup_mergeInto, addOpt_comm]

theorem mergeTwo_assoc (a b c : NgramsResult) :
    mergeTwo (mergeTwo a b) c = mergeTwo a (mergeTwo b c) := by
  apply NgramsResult.eq_of_fields
  · exact Nat.add_assoc a.total_unigrams b.total_unigrams c.total_unigrams
  · exact SMap.lookup_ext fun k => by
      rw [mergeTwo_uc, mergeTwo_uc, mergeTwo_uc, mergeTwo_uc,
        SMap.lookup_mergeInto, SMap.lookup_mergeInto,
        SMap.lookup_mergeInto, SMap.lookup_mergeInto, addOpt_assoc]
  · exact SMap.lookup_ext fun k => by
      rw [mergeTwo_art, mergeTwo_art, mergeTwo_art, mergeTwo_art,
        SMap.lookup_mergeInto, SMap.lookup_mergeInto,
        SMap.lookup_mergeInto, SMap.lookup_mergeInto, addOpt_assoc]
  · exact SMap.lookup_ext fun k => by
      rw [mergeTwo_bc, mergeTwo_bc, mergeTwo_bc, mergeTwo_bc,
        SMap.lookup_mergeInto, SMap.lookup_mergeInto,
        SMap.lookup_mergeInto, SMap.lookup_mergeInto, addOpt_assoc]

theorem merge_two_eq (a b : NgramsResult) :
    merge_ngrams_results [a, b] = mergeTwo a b := by
  show mergeTwo (mergeTwo emptyNgrams a) b = mergeTwo a b
  rw [mergeTwo_empty_left]

/-! ### The claims -/

/-- C1: merging of partial results, as realised by folding with
`merge_ngrams_results`, is commutative and associative: for all partial
results `r1 r2 r3`, `merge [r1, r2] = merge [r2, r1]` and
`merge [merge [r1, r2], r3] = merge [r1, merge [r2, r3]]`, merging being
point-wise addition of `total_unigrams`, `unigram_counts`,
`unigram_article_counts` and `bigram_counts` over the union of keys. -/
theorem merge_partial_results_comm_assoc (r1 r2 r3 : NgramsResult) :
    merge_ngrams_results [r1, r2] = merge_ngrams_results [r2, r1] ∧
    merge_ngrams_results [merge_ngrams_results [r1, r2], r3] =
      merge_ngrams_results [r1, merge_ngrams_results [r2, r3]] := by
  constructor
  · rw [merge_two_eq, merge_two_eq, mergeTwo_comm]
  · rw [merge_two_eq, merge_two_eq, merge_two_eq, merge_two_eq,
      mergeTwo_assoc]

/-- C2: for a line whose mapped token sequence `ts` has `n` tokens: if
`n ≥ 2`, processing the line adds exactly `n` to `total_unigrams`, adds to
`unigram_counts[t]` the number of positions of `t` in `ts`, and adds to
`bigram_counts[(t1, t2)]` the number of adjacent positions where `t1` is
immediately followed by `t2`; if `n ≤ 1`, the line changes none of
`total_unigrams`, `unigram_counts` or `bigram_counts`. -/
theorem line_counting_effect (r : NgramsResult) (ts : List String) :
    (2 ≤ ts.length →
      (processLine r ts).total_unigrams = r.total_unigrams + ts.length ∧
      (∀ t, (processLine r ts).unigram_counts.getD t =
        r.unigram_counts.getD t + countKey t ts) ∧
      (∀ t1 t2, (processLine r ts).bigram_counts.getD (t1, t2) =
        r.bigram_counts.getD (t1, t2) + countKey (t1, t2) (listPairs ts))) ∧
    (ts.length ≤ 1 →
      (processLine r ts).total_unigrams = r.total_unigrams ∧
      (processLine r ts).unigram_counts = r.unigram_counts ∧
      (processLine r ts).bigram_counts = r.bigram_counts) := by
  constructor
  · intro h
    exact ⟨processLine_total r ts h, fun t => processLine_uc_getD r ts h t,
      fun t1 t2 => processLine_bc_getD r ts t1 t2⟩
  · intro h
    rw [processLine_short r ts h]
    exact ⟨rfl, rfl, rfl⟩

/-- Witness for C2 at the concrete line `["a", "b", "a"]` starting from
empty tables, and at the one-token line `["a"]`. -/
theorem line_counting_effect_witness :
    (2 ≤ (["a", "b", "a"] : List String).length ∧
      (processLine emptyNgrams ["a", "b", "a"]).total_unigrams =
        emptyNgrams.total_unigrams + (["a", "b", "a"] : List String).length ∧
      (processLine emptyNgrams ["a", "b", "a"]).unigram_counts.getD "a" =
        emptyNgrams.unigram_counts.getD "a" +
          countKey "a" ["a", "b", "a"] ∧
      (processLine emptyNgrams ["a", "b", "a"]).bigram_counts.getD
          ("a", "b") =
        emptyNgrams.bigram_counts.getD ("a", "b") +
          countKey ("a", "b") (listPairs ["a", "b", "a"])) ∧
    ((["a"] : List String).length ≤ 1 ∧
      (processLine emptyNgrams ["a"]).unigram_counts =
        emptyNgrams.unigram_counts) :=
  ⟨⟨by decide,
    ((line_counting_effect emptyNgrams ["a", "b", "a"]).1 (by decide)).1,
    ((line_counting_effect emptyNgrams ["a", "b", "a"]).1
      (by decide)).2.1 "a",
    ((line_counting_effect emptyNgrams ["a", "b", "a"]).1
      (by decide)).2.2 "a" "b"⟩,
   ⟨by decide,
    ((line_counting_effect emptyNgrams ["a"]).2 (by decide)).2.1⟩⟩

/-- C3 counterexample: in the two-token line `["a", "b"]` the token `"b"`
occurs (as the final token), yet processing the line leaves
`unigram_article_counts["b"]` unchanged instead of incrementing it by 1:
the code only ever inserts the first element of each sliding-window pair
into `seen_unigrams`, so a token occurring only in the line's last
position gets no article-count increment. -/
theorem article_count_last_token_cex :
    ("b" ∈ (["a", "b"] : List String)) ∧
    ¬ ((processLine emptyNgrams ["a", "b"]).unigram_article_counts.getD
          "b" =
        emptyNgrams.unigram_article_counts.getD "b" + 1) := by
  constructor
  · decide
  · decide

/-- C3 amended: after processing a line with mapped token sequence `ts`,
`unigram_article_counts[t]` has increased by exactly 1 for each distinct
token `t` occurring anywhere among all but the last position of `ts`
(`ts.dropLast`), regardless of multiplicity; a token occurring only in
the line's final position — in particular the sole token of a one-token
line — gets no increment, and tokens not in the line are unchanged. -/
theorem article_counts_per_line (r : NgramsResult) (ts : List String)
    (t : String) :
    (processLine r ts).unigram_article_counts.getD t =
      r.unigram_article_counts.getD t +
        (if t ∈ ts.dropLast then 1 else 0) :=
  processLine_art_getD r ts t

/-- A small concrete corpus result for exercising the serializer: one
unigram entry `("cat", 5)` with article count `n`, and one bigram entry
`(("cat", "dog"), 7)` whose second token has no article-count entry. -/
def exampleResult (n : Nat) : NgramsResult where
  total_unigrams := 12
  unigram_counts := ⟨[("cat", 5)], List.pairwise_singleton _ _⟩
  unigram_article_counts := ⟨[("cat", n)], List.pairwise_singleton _ _⟩
  bigram_counts := ⟨[(("cat", "dog"), 7)], List.pairwise_singleton _ _⟩

/-- C4: the serializer writes a 1-grams line for an entry `(token, count)`
of `unigram_counts` iff the token's `unigram_article_counts` value —
defaulting to `u64::max_value()` when absent, so always passing — is
strictly greater than the threshold 40; in particular an entry whose
token has article count 41 is written and one with article count exactly
40 is not. -/
theorem unigram_threshold_filter :
    (∀ (r : NgramsResult) (t : String) (c : Nat),
      (t, c) ∈ r.unigram_counts.entries →
      ((t, c) ∈ writtenUnigrams r ↔
        MINIMUM_ARTICLE_THRESHOLD <
          (r.unigram_article_counts.lookup t).getD U64_MAX)) ∧
    ("cat", 5) ∈ writtenUnigrams (exampleResult 41) ∧
    ("cat", 5) ∉ writtenUnigrams (exampleResult 40) := by
  refine ⟨?_, by decide, by decide⟩
  intro r t c hmem
  rw [writtenUnigrams, List.mem_filter]
  constructor
  · intro h
    have h2 : passesThreshold r t = true := h.2
    rw [passesThreshold, decide_eq_true_eq] at h2
    exact h2
  · intro h
    refine ⟨hmem, ?_⟩
    show passesThreshold r t = true
    rw [passesThreshold, decide_eq_true_eq]
    exact h

/-- Witness for C4 at the concrete result with article count 41. -/
theorem unigram_threshold_filter_witness :
    ("cat", 5) ∈ (exampleResult 41).unigram_counts.entries ∧
    (("cat", 5) ∈ writtenUnigrams (exampleResult 41) ↔
      MINIMUM_ARTICLE_THRESHOLD <
        ((exampleResult 41).unigram_article_counts.lookup "cat").getD
          U64_MAX) :=
  ⟨by decide,
   unigram_threshold_filter.1 (exampleResult 41) "cat" 5 (by decide)⟩

/-- C6: the serializer writes a 2-grams line for an entry
`((token1, token2), count)` of `bigram_counts` iff both tokens
individually pass the article-count test used for unigrams (strictly
greater than 40, absent entries passing); if only one of the two passes,
the line is omitted — as in the concrete result where only `"dog"`
passes. -/
theorem bigram_threshold_filter :
    (∀ (r : NgramsResult) (t1 t2 : String) (c : Nat),
      ((t1, t2), c) ∈ r.bigram_counts.entries →
      (((t1, t2), c) ∈ writtenBigrams r ↔
        (MINIMUM_ARTICLE_THRESHOLD <
           (r.unigram_article_counts.lookup t1).getD U64_MAX ∧
         MINIMUM_ARTICLE_THRESHOLD <
           (r.unigram_article_counts.lookup t2).getD U64_MAX))) ∧
    (("cat", "dog"), 7) ∈ writtenBigrams (exampleResult 41) ∧
    (("cat", "dog"), 7) ∉ writtenBigrams (exampleResult 40) := by
  refine ⟨?_, by decide, by decide⟩
  intro r t1 t2 c hmem
  rw [writtenBigrams, List.mem_filter]
  constructor
  · intro h
    have h2 : (passesThreshold r t1 && passesThreshold r t2) = true := h.2
    rw [Bool.and_eq_true] at h2
    obtain ⟨ha, hb⟩ := h2
    rw [passesThreshold, decide_eq_true_eq] at ha hb
    exact ⟨ha, hb⟩
  · intro h
    refine ⟨hmem, ?_⟩
    show (passesThreshold r t1 && passesThreshold r t2) = true
    rw [Bool.and_eq_true, passesThreshold, passesThreshold,
      decide_eq_true_eq, decide_eq_true_eq]
    exact h

/-- Witness for C6 at the concrete result with article count 41. -/
theorem bigram_threshold_filter_witness :
    (("cat", "dog"), 7) ∈ (exampleResult 41).bigram_counts.entries ∧
    ((("cat", "dog"), 7) ∈ writtenBigrams (exampleResult 41) ↔
      (MINIMUM_ARTICLE_THRESHOLD <
         ((exampleResult 41).unigram_article_counts.lookup "cat").getD
           U64_MAX ∧
       MINIMUM_ARTICLE_THRESHOLD <
         ((exampleResult 41).unigram_article_counts.lookup "dog").getD
           U64_MAX)) :=
  ⟨by decide,
   bigram_threshold_filter.1 (exampleResult 41) "cat" "dog" 7 (by decide)⟩

/-- C7: the serialized header lines `ngram 1 = N` and `ngram 2 = N`
report the total number of entries of `unigram_counts` and
`bigram_counts` — the unfiltered map sizes — and not the number of
1-gram / 2-gram lines actually written: in the concrete result with
article count 40, both maps have one entry but zero lines pass the
filter. -/
theorem header_counts_unfiltered :
    (∀ r : NgramsResult,
      (persistLines r)[2]? =
        some ("ngram 1 = " ++ toString r.unigram_counts.entries.length) ∧
      (persistLines r)[3]? =
        some ("ngram 2 = " ++ toString r.bigram_counts.entries.length)) ∧
    (exampleResult 40).unigram_counts.entries.length = 1 ∧
    (writtenUnigrams (exampleResult 40)).length = 0 ∧
    (exampleResult 40).bigram_counts.entries.length = 1 ∧
    (writtenBigrams (exampleResult 40)).length = 0 := by
  refine ⟨?_, by decide, by decide, by decide, by decide⟩
  intro r
  exact ⟨rfl, rfl⟩

/-- The vocabulary of the C5 scenario. -/
def c5dict : List String := ["the", "cat", "sat", "mat"]

/-- One synthetic one-line article containing `"cat"` (not only in the
final position, so that its article count is registered), processed by
the shard counter. -/
def c5partial : NgramsResult := calculate_ngrams c5dict ["cat sat"]

/-- C5: with vocabulary `{"the","cat","sat","mat"}` and threshold 40,
processing 41 synthetic one-line articles containing `"cat"` and merging
the partial results puts a `1-grams` line for `cat` (with count 41) in
the output, whereas with only 40 such articles `cat` is absent from the
output. -/
theorem threshold_scenario_41_vs_40 :
    ("cat", 41) ∈
      writtenUnigrams (merge_ngrams_results (List.replicate 41 c5partial)) ∧
    "41\tcat" ∈
      persistLines (merge_ngrams_results (List.replicate 41 c5partial)) ∧
    "cat" ∉ (writtenUnigrams (merge_ngrams_results
      (List.replicate 40 c5partial))).map Prod.fst := by
  refine ⟨by decide, by decide, by decide⟩

/-! ### C8: every count-table key is a vocabulary member or the OOV sentinel -/

def validToken (dict : List String) (t : String) : Prop :=
  t ∈ dict ∨ t = OUT_OF_VOCABULARY_WORD

/-- Every key of `unigram_counts` and `unigram_article_counts`, and every
component of every key of `bigram_counts`, is in the vocabulary or is the
OOV sentinel. -/
def ValidKeys (dict : List String) (r : NgramsResult) : Prop :=
  (∀ t, t ∈ r.unigram_counts.entries.map Prod.fst → validToken dict t) ∧
  (∀ t, t ∈ r.unigram_article_counts.entries.map Prod.fst →
    validToken dict t) ∧
  (∀ p : String × String, p ∈ r.bigram_counts.entries.map Prod.fst →
    validToken dict p.1 ∧ validToken dict p.2)

theorem lineTokens_valid (dict : List String) (line : String) :
    ∀ t ∈ lineTokens dict line, validToken dict t := by
  intro t ht
  rw [lineTokens] at ht
  obtain ⟨t', _, hmap⟩ := List.mem_map.mp ht
  rw [← hmap, mapToken]
  by_cases hd : t' ∈ dict
  · rw [if_pos hd]
    exact Or.inl hd
  · rw [if_neg hd]
    exact Or.inr rfl

theorem getLastD_mem (ts : List String) (h : 2 ≤ ts.length) :
    ts.getLastD "" ∈ ts := by
  have hne : ts ≠ [] := by
    intro hx
    rw [hx] at h
    simp at h
  rw [getLastD_of_ne_nil ts hne]
  exact List.getLast_mem hne

theorem emptyNgrams_validKeys (dict : List String) :
    ValidKeys dict emptyNgrams := by
  refine ⟨?_, ?_, ?_⟩
  · intro t ht
    simp [emptyNgrams, SMap.empty] at ht
  · intro t ht
    simp [emptyNgrams, SMap.empty] at ht
  · intro p hp
    simp [emptyNgrams, SMap.empty] at hp

theorem processLine_validKeys {dict : List String} {r : NgramsResult}
    {ts : List String} (hr : ValidKeys dict r)
    (hts : ∀ t ∈ ts, validToken dict t) :
    ValidKeys dict (processLine r ts) := by
  refine ⟨?_, ?_, ?_⟩
  · intro t ht
    have hc := (SMap.contains_iff_mem _ t).mpr ht
    rcases (processLine_uc_contains r ts t).mp hc with h | h | h
    · exact hr.1 t ((SMap.contains_iff_mem _ t).mp h)
    · exact hts t (List.dropLast_subset ts h)
    · rw [h.2]
      exact hts _ (getLastD_mem ts h.1)
  · intro t ht
    have hc := (SMap.contains_iff_mem _ t).mpr ht
    rcases (processLine_art_contains r ts t).mp hc with h | h
    · exact hr.2.1 t ((SMap.contains_iff_mem _ t).mp h)
    · exact hts t (List.dropLast_subset ts h)
  · intro p hp
    have hc := (SMap.contains_iff_mem _ p).mpr hp
    rcases (processLine_bc_contains r ts p).mp hc with h | h
    · exact hr.2.2 p ((SMap.contains_iff_mem _ p).mp h)
    · have := listPairs_mem p ts h
      exact ⟨hts p.1 this.1, hts p.2 this.2⟩

theorem mergeTwo_validKeys {dict : List String} {a b : NgramsResult}
    (ha : ValidKeys dict a) (hb : ValidKeys dict b) :
    ValidKeys dict (mergeTwo a b) := by
  refine ⟨?_, ?_, ?_⟩
  · intro t ht
    have hc := (SMap.contains_iff_mem _ t).mpr ht
    rw [mergeTwo_uc, SMap.contains_mergeInto] at hc
    rcases Bool.or_eq_true_iff.mp hc with h | h
    · exact ha.1 t ((SMap.contains_iff_mem _ t).mp h)
    · exact hb.1 t ((SMap.contains_iff_mem _ t).mp h)
  · intro t ht
    have hc := (SMap.contains_iff_mem _ t).mpr ht
    rw [mergeTwo_art, SMap.contains_mergeInto] at hc
    rcases Bool.or_eq_true_iff.mp hc with h | h
    · exact ha.2.1 t ((SMap.contains_iff_mem _ t).mp h)
    · exact hb.2.1 t ((SMap.contains_iff_mem _ t).mp h)
  · intro p hp
    have hc := (SMap.contains_iff_mem _ p).mpr hp
    rw [mergeTwo_bc, SMap.contains_mergeInto] at hc
    rcases Bool.or_eq_true_iff.mp hc with h | h
    · exact ha.2.2 p ((SMap.contains_iff_mem _ p).mp h)
    · exact hb.2.2 p ((SMap.contains_iff_mem _ p).mp h)

theorem calculate_ngrams_validKeys (dict : List String)
    (lines : List String) : ValidKeys dict (calculate_ngrams dict lines) := by
  rw [calculate_ngrams]
  have hgen : ∀ (ls : List String) (r0 : NgramsResult),
      ValidKeys dict r0 →
      ValidKeys dict (ls.foldl
        (fun r line => processLine r (lineTokens dict line)) r0) := by
    intro ls
    induction ls with
    | nil => exact fun r0 h => h
    | cons line rest ih =>
      intro r0 h0
      rw [List.foldl_cons]
      exact ih _ (processLine_validKeys h0 (lineTokens_valid dict line))
  exact hgen lines emptyNgrams (emptyNgrams_validKeys dict)

theorem foldl_mergeTwo_validKeys {dict : List String}
    (rs : List NgramsResult) (hrs : ∀ r ∈ rs, ValidKeys dict r) :
    ∀ acc : NgramsResult, ValidKeys dict acc →
      ValidKeys dict (rs.foldl mergeTwo acc) := by
  induction rs with
  | nil => exact fun acc h => h
  | cons r rest ih =>
    intro acc hacc
    rw [List.foldl_cons]
    exact ih (fun x hx => hrs x (List.mem_cons_of_mem r hx)) _
      (mergeTwo_validKeys hacc (hrs r (List.mem_cons_self r rest)))

/-- C8: in every partial result produced by the shard counter and in
every merged result of such partial results, every key of
`unigram_counts` and `unigram_article_counts`, and every component of
every key of `bigram_counts`, is a vocabulary member or the OOV sentinel
`"<unk>"`; a token not in the vocabulary is recorded under the sentinel,
never under its own spelling (the mapping step substitutes it before any
table is touched). -/
theorem vocab_or_oov_keys (dict : List String) :
    (∀ lines : List String,
      ValidKeys dict (calculate_ngrams dict lines)) ∧
    (∀ shards : List (List String),
      ValidKeys dict (merge_ngrams_results
        (shards.map (calculate_ngrams dict)))) := by
  refine ⟨calculate_ngrams_validKeys dict, ?_⟩
  intro shards
  rw [merge_ngrams_results]
  apply foldl_mergeTwo_validKeys
  · intro r hr
    obtain ⟨lines, _, hmap⟩ := List.mem_map.mp hr
    rw [← hmap]
    exact calculate_ngrams_validKeys dict lines
  · exact emptyNgrams_validKeys dict

/-! ### C9: article counts never exceed unigram counts -/

/-- The invariant: every token with an article-count entry also has a
unigram-count entry, and its article count never exceeds its unigram
count. -/
def ArtLeUni (r : NgramsResult) : Prop :=
  ∀ t, (r.unigram_article_counts.contains t = true →
        r.unigram_counts.contains t = true) ∧
    r.unigram_article_counts.getD t ≤ r.unigram_counts.getD t

theorem emptyNgrams_artLeUni : ArtLeUni emptyNgrams := by
  intro t
  constructor
  · intro h
    exact h
  · exact Nat.le_refl 0

theorem processLine_artLeUni {r : NgramsResult} {ts : List String}
    (h : ArtLeUni r) : ArtLeUni (processLine r ts) := by
  intro t
  constructor
  · intro hc
    rcases (processLine_art_contains r ts t).mp hc with h' | h'
    · exact (processLine_uc_contains r ts t).mpr (Or.inl ((h t).1 h'))
    · exact (processLine_uc_contains r ts t).mpr (Or.inr (Or.inl h'))
  · rw [processLine_art_getD, processLine_uc_getD_all]
    have hle := (h t).2
    by_cases hm : t ∈ ts.dropLast
    · rw [if_pos hm]
      have hcnt := countKey_pos hm
      omega
    · rw [if_neg hm]
      omega

theorem mergeTwo_artLeUni {a b : NgramsResult} (ha : ArtLeUni a)
    (hb : ArtLeUni b) : ArtLeUni (mergeTwo a b) := by
  intro t
  constructor
  · intro hc
    rw [mergeTwo_art, SMap.contains_mergeInto] at hc
    rw [mergeTwo_uc, SMap.contains_mergeInto]
    rcases Bool.or_eq_true_iff.mp hc with h | h
    · rw [(ha t).1 h]
      rfl
    · rw [(hb t).1 h]
      simp
  · rw [mergeTwo_art, mergeTwo_uc, SMap.getD_mergeInto, SMap.getD_mergeInto]
    have h1 := (ha t).2
    have h2 := (hb t).2
    omega

theorem calculate_ngrams_artLeUni (dict : List String)
    (lines : List String) : ArtLeUni (calculate_ngrams dict lines) := by
  rw [calculate_ngrams]
  have hgen : ∀ (ls : List String) (r0 : NgramsResult), ArtLeUni r0 →
      ArtLeUni (ls.foldl
        (fun r line => processLine r (lineTokens dict line)) r0) := by
    intro ls
    induction ls with
    | nil => exact fun r0 h => h
    | cons line rest ih =>
      intro r0 h0
      rw [List.foldl_cons]
      exact ih _ (processLine_artLeUni h0)
  exact hgen lines emptyNgrams emptyNgrams_artLeUni

/-- C9: in every partial result produced by the shard counter, and
preserved through every merge of results satisfying it, every token with
an entry in `unigram_article_counts` also has a `unigram_counts` entry
and `unigram_article_counts[t] ≤ unigram_counts[t]`. -/
theorem article_le_unigram (dict : List String) :
    (∀ lines : List String, ArtLeUni (calculate_ngrams dict lines)) ∧
    (∀ r1 r2 : NgramsResult, ArtLeUni r1 → ArtLeUni r2 →
      ArtLeUni (mergeTwo r1 r2)) ∧
    (∀ shards : List (List String),
      ArtLeUni (merge_ngrams_results
        (shards.map (calculate_ngrams dict)))) := by
  refine ⟨calculate_ngrams_artLeUni dict,
    fun r1 r2 h1 h2 => mergeTwo_artLeUni h1 h2, ?_⟩
  intro shards
  rw [merge_ngrams_results]
  have hgen : ∀ (rs : List NgramsResult), (∀ r ∈ rs, ArtLeUni r) →
      ∀ acc : NgramsResult, ArtLeUni acc →
        ArtLeUni (rs.foldl mergeTwo acc) := by
    intro rs
    induction rs with
    | nil => exact fun _ acc h => h
    | cons r rest ih =>
      intro hrs acc hacc
      rw [List.foldl_cons]
      exact ih (fun x hx => hrs x (List.mem_cons_of_mem r hx)) _
        (mergeTwo_artLeUni hacc (hrs r (List.mem_cons_self r rest)))
  apply hgen
  · intro r hr
    obtain ⟨lines, _, hmap⟩ := List.mem_map.mp hr
    rw [← hmap]
    exact calculate_ngrams_artLeUni dict lines
  · exact emptyNgrams_artLeUni

/-- Witness for C9: the merge-preservation part applied to two concrete
partial results of the shard counter. -/
theorem article_le_unigram_witness :
    ArtLeUni (mergeTwo (calculate_ngrams c5dict ["cat sat"])
      (calculate_ngrams c5dict ["cat sat"])) :=
  (article_le_unigram c5dict).2.1
    (calculate_ngrams c5dict ["cat sat"])
    (calculate_ngrams c5dict ["cat sat"])
    ((article_le_unigram c5dict).1 ["cat sat"])
    ((article_le_unigram c5dict).1 ["cat sat"])

/-- C10: a whitespace-delimited raw token made entirely of ASCII
punctuation trims to the empty string; the dictionary construction never
yields the empty string, so such a token maps to the OOV sentinel; the
mapping is positional (nothing is dropped from the token sequence), and
in the concrete line `"!!! hello"` the resulting `"<unk>"` token
participates in `total_unigrams`, `unigram_counts`,
`unigram_article_counts` and `bigram_counts` like any other token. -/
theorem punct_only_token_oov :
    (∀ t : String, (∀ c ∈ t.data, isAsciiPunct c = true) →
      rustTrimMatches trimPred t = "") ∧
    (∀ (nf : String → String) (ls : List String),
      "" ∉ dictFromLines nf ls) ∧
    (∀ (dict : List String) (raw : String), "" ∉ dict →
      (∀ c ∈ raw.data, isAsciiPunct c = true) →
      mapToken dict (rustTrimMatches trimPred raw) =
        OUT_OF_VOCABULARY_WORD) ∧
    (∀ (dict : List String) (line : String),
      lineTokens dict line = (rustSplitWhitespace line).map
        (fun raw => mapToken dict (rustTrimMatches trimPred raw)) ∧
      (lineTokens dict line).length =
        (rustSplitWhitespace line).length) ∧
    ((calculate_ngrams ["hello"] ["!!! hello"]).total_unigrams = 2 ∧
     ("<unk>", 1) ∈
       (calculate_ngrams ["hello"] ["!!! hello"]).unigram_counts.entries ∧
     ("<unk>", 1) ∈ (calculate_ngrams ["hello"]
       ["!!! hello"]).unigram_article_counts.entries ∧
     (("<unk>", "hello"), 1) ∈
       (calculate_ngrams ["hello"] ["!!! hello"]).bigram_counts.entries) := by
  have htrim : ∀ t : String, (∀ c ∈ t.data, isAsciiPunct c = true) →
      rustTrimMatches trimPred t = "" := by
    intro t h
    have hall : t.data.dropWhile trimPred = [] := by
      rw [List.dropWhile_eq_nil_iff]
      intro x hx
      rw [trimPred, h x hx]
      rfl
    rw [rustTrimMatches, hall]
    rfl
  refine ⟨htrim, ?_, ?_, ?_, by decide, by decide, by decide, by decide⟩
  · intro nf ls h
    have := (List.mem_filter.mp h).2
    simp at this
  · intro dict raw hdict hraw
    rw [htrim raw hraw, mapToken, if_neg hdict]
  · intro dict line
    refine ⟨?_, ?_⟩
    · rw [lineTokens, List.map_map]
      rfl
    · rw [lineTokens, List.length_map, List.length_map]

/-- Witness for C10 at the concrete raw token `"!!!"` and dictionary
`["hello"]`. -/
theorem punct_only_token_oov_witness :
    ("" ∉ (["hello"] : List String)) ∧
    (∀ c ∈ ("!!!" : String).data, isAsciiPunct c = true) ∧
    mapToken ["hello"] (rustTrimMatches trimPred "!!!") =
      OUT_OF_VOCABULARY_WORD :=
  ⟨by decide, by decide,
   punct_only_token_oov.2.2.1 ["hello"] "!!!" (by decide) (by decide)⟩

end WordFreq
